import Mathlib

/-!
Shallow embedding of `src/dhcp_app.py` (a minimal DHCP responder):
the option codec (`parse_options` / `build_options`), the packet builder
(`build_reply`), and the lease allocator (`LeaseManager.allocate`).

Modelling conventions:
* Python `bytes` values are `List Nat` whose elements are below 256; the
  byte bound appears as a hypothesis where a theorem needs it.
* A Python `dict` is an insertion-ordered association list; `dinsert`
  models `d[k] = v` (update in place if the key is present, else append)
  and `dlookup` models `d[k]` / `k in d`.
* Timestamps (`time.time()`) are modelled as `Int` and passed explicitly;
  one `now` per `allocate` call (the source calls `time.time()` again inside
  `_is_available`, a sub-millisecond drift irrelevant to the properties here).
* A Python function that can raise returns `Option` (`none` = exception).
-/

section PyDict

variable {κ α : Type} [DecidableEq κ]

/-- Python dict lookup `d.get(k)` over an insertion-ordered association list. -/
def dlookup : List (κ × α) → κ → Option α
  | [], _ => none
  | (k', v) :: rest, k => if k' = k then some v else dlookup rest k

/-- Python dict assignment `d[k] = v`: if the key is present, the entry is
updated in place (insertion order preserved); otherwise the pair is appended. -/
def dinsert (d : List (κ × α)) (k : κ) (v : α) : List (κ × α) :=
  if d.any (fun e => decide (e.1 = k)) then
    d.map (fun e => if e.1 = k then (k, v) else e)
  else d ++ [(k, v)]

theorem dlookup_cons (e : κ × α) (rest : List (κ × α)) (k : κ) :
    dlookup (e :: rest) k = if e.1 = k then some e.2 else dlookup rest k := rfl

theorem dlookup_eq_none_of_forall (d : List (κ × α)) (k : κ)
    (h : ∀ e ∈ d, e.1 ≠ k) : dlookup d k = none := by
  induction d with
  | nil => rfl
  | cons e rest ih =>
    simp only [dlookup]
    rw [if_neg (h e (List.mem_cons_self e rest))]
    exact ih (fun e' he' => h e' (List.mem_cons_of_mem _ he'))

theorem dlookup_mem {d : List (κ × α)} {k : κ} {v : α}
    (h : dlookup d k = some v) : (k, v) ∈ d := by
  induction d with
  | nil => simp [dlookup] at h
  | cons e rest ih =>
    simp only [dlookup] at h
    by_cases hk : e.1 = k
    · rw [if_pos hk] at h
      have he : e = (k, v) := by
        obtain ⟨a, b⟩ := e
        simp only at hk
        simp only [Option.some.injEq] at h
        rw [hk, h]
      rw [he]
      exact List.mem_cons_self _ _
    · rw [if_neg hk] at h
      exact List.mem_cons_of_mem _ (ih h)

theorem dinsert_of_absent {d : List (κ × α)} {k : κ} (v : α)
    (h : ∀ e ∈ d, e.1 ≠ k) : dinsert d k v = d ++ [(k, v)] := by
  unfold dinsert
  rw [if_neg]
  simp only [List.any_eq_true, decide_eq_true_eq, not_exists]
  intro e
  exact fun he => absurd he.2 (h e he.1)

theorem mem_dinsert {d : List (κ × α)} {k : κ} {v : α} {e : κ × α}
    (h : e ∈ dinsert d k v) : e = (k, v) ∨ (e ∈ d ∧ e.1 ≠ k) := by
  unfold dinsert at h
  by_cases hp : d.any (fun e => decide (e.1 = k)) = true
  · rw [if_pos hp] at h
    rcases List.mem_map.mp h with ⟨e', he', heq⟩
    by_cases hk : e'.1 = k
    · rw [if_pos hk] at heq
      exact Or.inl heq.symm
    · rw [if_neg hk] at heq
      exact Or.inr ⟨heq ▸ he', heq ▸ hk⟩
  · rw [if_neg hp] at h
    rcases List.mem_append.mp h with h' | h'
    · simp only [List.any_eq_true, decide_eq_true_eq, not_exists] at hp
      push_neg at hp
      exact Or.inr ⟨h', hp e h'⟩
    · simp only [List.mem_singleton] at h'
      exact Or.inl h'

theorem dlookup_map_replace_ne (d : List (κ × α)) {k m : κ} (v : α) (h : m ≠ k) :
    dlookup (d.map (fun e => if e.1 = k then (k, v) else e)) m = dlookup d m := by
  induction d with
  | nil => rfl
  | cons e rest ih =>
    simp only [List.map_cons, dlookup_cons]
    by_cases hk : e.1 = k
    · rw [if_pos hk, hk]
      rw [if_neg (fun hh : (k, v).1 = m => h hh.symm), if_neg (fun hh : k = m => h hh.symm)]
      exact ih
    · rw [if_neg hk]
      by_cases hm : e.1 = m
      · rw [if_pos hm, if_pos hm]
      · rw [if_neg hm, if_neg hm]
        exact ih

theorem dlookup_append_single_ne (d : List (κ × α)) {k m : κ} (v : α) (h : m ≠ k) :
    dlookup (d ++ [(k, v)]) m = dlookup d m := by
  induction d with
  | nil =>
    simp only [List.nil_append, dlookup]
    rw [if_neg (fun hh => h hh.symm)]
  | cons e rest ih =>
    simp only [List.cons_append, dlookup]
    by_cases hm : e.1 = m
    · rw [if_pos hm, if_pos hm]
    · rw [if_neg hm, if_neg hm]
      exact ih

theorem dlookup_dinsert_ne {d : List (κ × α)} {k m : κ} (v : α)
    (h : m ≠ k) : dlookup (dinsert d k v) m = dlookup d m := by
  unfold dinsert
  by_cases hp : d.any (fun e => decide (e.1 = k)) = true
  · rw [if_pos hp]
    exact dlookup_map_replace_ne d v h
  · rw [if_neg hp]
    exact dlookup_append_single_ne d v h

end PyDict

/-! ## Option codec (`parse_options`, `build_options`) -/

/-- Worker for `parse_options`, a direct transcription of the `while` loop in
`parse_options` (src/dhcp_app.py lines 24-41).  The `fuel` argument only makes
the recursion structural; `parse_options` supplies `raw.length`, which is
always enough fuel, so the `fuel = 0` clause is never hit on a nonempty
buffer (see `parseAux_fuel_irrel`). -/
def parseAux : Nat → List Nat → List (Nat × List Nat) → List (Nat × List Nat)
  | 0, _, acc => acc
  | _ + 1, [], acc => acc
  | fuel + 1, code :: rest, acc =>
    if code = 255 then acc
    else if code = 0 then parseAux fuel rest acc
    else
      match rest with
      | [] => acc
      | len :: rest2 => parseAux fuel (rest2.drop len) (dinsert acc code (rest2.take len))

/-- `parse_options(raw)`: scan the raw option bytes left to right into a
code-to-value dict (0 = padding, 255 = terminator; last occurrence of a code
wins; truncated input never raises). -/
def parse_options (raw : List Nat) : List (Nat × List Nat) :=
  parseAux raw.length raw []

/-- `build_options(options)`: emit `code, len(value), value` for every pair
whose value is present (`none` models Python `None`, which is skipped), then
append the single terminator byte 255.  The result is `none` when
`struct.pack("BB", code, len(value))` would raise, i.e. when a code or a
value length does not fit in one byte. -/
def build_options : List (Nat × Option (List Nat)) → Option (List Nat)
  | [] => some [255]
  | (_, none) :: rest => build_options rest
  | (code, some v) :: rest =>
    if code ≤ 255 ∧ v.length ≤ 255 then
      match build_options rest with
      | some tail => some (code :: v.length :: (v ++ tail))
      | none => none
    else none

/-- The byte encoding of a list of complete (code, value) options, without
any terminator: exactly what `build_options` emits for them. -/
def encodeOpts : List (Nat × List Nat) → List Nat
  | [] => []
  | (code, v) :: rest => code :: v.length :: (v ++ encodeOpts rest)

/-- The entries of a `build_options` input whose value is present
(Python `None` entries are skipped by `build_options`). -/
def presentEntries (l : List (Nat × Option (List Nat))) : List (Nat × List Nat) :=
  l.filterMap (fun p => p.2.map (fun v => (p.1, v)))

example : parse_options [53, 1, 1, 255] = [(53, [1])] := by decide
example : parse_options [0, 0, 53, 1, 1, 255, 50, 1, 9] = [(53, [1])] := by decide
example : parse_options [1, 4, 9] = [(1, [9])] := by decide
example : parse_options [1] = [] := by decide
example : build_options [(53, some [1]), (50, none), (1, some [2, 3])]
    = some [53, 1, 1, 1, 2, 2, 3, 255] := by decide
example : build_options [(0, some [])] = some [0, 0, 255] := by decide
example : parse_options [0, 0, 255] = [] := by decide

theorem parseAux_fuel_irrel : ∀ (fuel fuel' : Nat) (raw : List Nat)
    (acc : List (Nat × List Nat)), raw.length ≤ fuel → raw.length ≤ fuel' →
    parseAux fuel raw acc = parseAux fuel' raw acc := by
  intro fuel
  induction fuel with
  | zero =>
    intro fuel' raw acc h h'
    have : raw = [] := List.length_eq_zero.mp (Nat.le_zero.mp h)
    subst this
    cases fuel' <;> rfl
  | succ f ih =>
    intro fuel' raw acc h h'
    cases raw with
    | nil => cases fuel' <;> rfl
    | cons code rest =>
      cases fuel' with
      | zero => exact absurd h' (by simp)
      | succ f' =>
        simp only [parseAux]
        by_cases h255 : code = 255
        · rw [if_pos h255, if_pos h255]
        · rw [if_neg h255, if_neg h255]
          by_cases h0 : code = 0
          · rw [if_pos h0, if_pos h0]
            simp only [List.length_cons] at h h'
            exact ih f' rest acc (Nat.lt_succ_iff.mp h) (Nat.lt_succ_iff.mp h')
          · rw [if_neg h0, if_neg h0]
            cases rest with
            | nil => rfl
            | cons len rest2 =>
              simp only [List.length_cons] at h h'
              refine ih f' _ _ ?_ ?_ <;>
                calc (rest2.drop len).length ≤ rest2.length := by
                      rw [List.length_drop]; omega
                  _ ≤ _ := by omega

theorem parseAux_encode : ∀ (entries : List (Nat × List Nat)) (rest : List Nat)
    (acc : List (Nat × List Nat)) (fuel : Nat),
    (∀ p ∈ entries, p.1 ≠ 0 ∧ p.1 ≠ 255) →
    (encodeOpts entries ++ rest).length ≤ fuel →
    parseAux fuel (encodeOpts entries ++ rest) acc
      = parseAux rest.length rest
          (entries.foldl (fun a p => dinsert a p.1 p.2) acc) := by
  intro entries
  induction entries with
  | nil =>
    intro rest acc fuel _ hf
    simp only [encodeOpts, List.nil_append, List.foldl_nil]
    exact parseAux_fuel_irrel fuel rest.length rest acc (by simpa [encodeOpts] using hf)
      (Nat.le_refl _)
  | cons p tl ih =>
    intro rest acc fuel hp hf
    obtain ⟨code, v⟩ := p
    have hcode := hp (code, v) (List.mem_cons_self _ _)
    simp only at hcode
    have henc : encodeOpts ((code, v) :: tl) ++ rest
        = code :: v.length :: (v ++ (encodeOpts tl ++ rest)) := by
      simp [encodeOpts, List.append_assoc]
    rw [henc] at hf ⊢
    cases fuel with
    | zero => simp at hf
    | succ f =>
      simp only [parseAux]
      rw [if_neg hcode.2, if_neg hcode.1]
      have htake : (v ++ (encodeOpts tl ++ rest)).take v.length = v := List.take_left v _
      have hdrop : (v ++ (encodeOpts tl ++ rest)).drop v.length = encodeOpts tl ++ rest :=
        List.drop_left v _
      rw [htake, hdrop]
      have hf' : (encodeOpts tl ++ rest).length ≤ f := by
        simp only [List.length_cons, List.length_append] at hf ⊢
        omega
      rw [ih rest (dinsert acc code v) f
            (fun q hq => hp q (List.mem_cons_of_mem _ hq)) hf']
      rfl

theorem foldl_dinsert_eq_append : ∀ (entries acc : List (Nat × List Nat)),
    (∀ p ∈ entries, ∀ q ∈ acc, q.1 ≠ p.1) → (entries.map Prod.fst).Nodup →
    entries.foldl (fun a p => dinsert a p.1 p.2) acc = acc ++ entries := by
  intro entries
  induction entries with
  | nil => intro acc _ _; simp
  | cons p tl ih =>
    intro acc hfresh hnd
    simp only [List.map_cons, List.nodup_cons] at hnd
    have h1 : dinsert acc p.1 p.2 = acc ++ [p] := by
      rw [dinsert_of_absent p.2 (fun e he => hfresh p (List.mem_cons_self _ _) e he)]
    simp only [List.foldl_cons, h1]
    rw [ih (acc ++ [p]) ?_ hnd.2]
    · simp
    · intro q hq r hr
      rcases List.mem_append.mp hr with hr' | hr'
      · exact hfresh q (List.mem_cons_of_mem _ hq) r hr'
      · simp only [List.mem_singleton] at hr'
        subst hr'
        intro hcontra
        exact hnd.1 (hcontra ▸ List.mem_map_of_mem Prod.fst hq)

theorem build_options_some : ∀ {l : List (Nat × Option (List Nat))} {bs : List Nat},
    build_options l = some bs → bs = encodeOpts (presentEntries l) ++ [255] := by
  intro l
  induction l with
  | nil =>
    intro bs h
    simp only [build_options, Option.some.injEq] at h
    simp [presentEntries, encodeOpts, h.symm]
  | cons p tl ih =>
    intro bs h
    obtain ⟨code, v⟩ := p
    cases v with
    | none =>
      simp only [build_options] at h
      simpa [presentEntries] using ih h
    | some w =>
      simp only [build_options] at h
      by_cases hc : code ≤ 255 ∧ w.length ≤ 255
      · rw [if_pos hc] at h
        cases htl : build_options tl with
        | none => rw [htl] at h; simp at h
        | some tail =>
          rw [htl] at h
          simp only [Option.some.injEq] at h
          rw [← h, ih htl]
          simp [presentEntries, encodeOpts, List.append_assoc]
      · rw [if_neg hc] at h
        simp at h

theorem mem_presentEntries {l : List (Nat × Option (List Nat))} {q : Nat × List Nat}
    (h : q ∈ presentEntries l) : ∃ p ∈ l, p.1 = q.1 ∧ p.2 = some q.2 := by
  unfold presentEntries at h
  rcases List.mem_filterMap.mp h with ⟨p, hp, hpq⟩
  cases hv : p.2 with
  | none => rw [hv] at hpq; simp at hpq
  | some w =>
    rw [hv] at hpq
    simp only [Option.map_some', Option.some.injEq] at hpq
    exact ⟨p, hp, by rw [← hpq], by rw [hv, ← hpq]⟩

theorem presentEntries_keys_sublist (l : List (Nat × Option (List Nat))) :
    List.Sublist ((presentEntries l).map Prod.fst) (l.map Prod.fst) := by
  induction l with
  | nil => exact List.Sublist.refl _
  | cons p tl ih =>
    obtain ⟨code, v⟩ := p
    cases v with
    | none =>
      have hskip : presentEntries ((code, none) :: tl) = presentEntries tl := by
        simp [presentEntries]
      rw [hskip, List.map_cons]
      exact List.Sublist.cons code ih
    | some w =>
      have hcons : presentEntries ((code, some w) :: tl)
          = (code, w) :: presentEntries tl := by
        simp [presentEntries]
      rw [hcons, List.map_cons, List.map_cons]
      exact List.Sublist.cons₂ code ih

theorem parseAux_one_term (acc : List (Nat × List Nat)) : parseAux 1 [255] acc = acc := rfl

/-- C5 (amended): for an ordered option list with no terminator (255) and no
padding (0) codes, pairwise-distinct codes, on which `build_options`
succeeds, parsing the built bytes yields exactly the present code-to-value
entries of the list, in order (`None`-valued pairs are skipped by
`build_options` and so contribute no entry). -/
theorem options_roundtrip (l : List (Nat × Option (List Nat))) (bs : List Nat)
    (hb : build_options l = some bs)
    (hcodes : ∀ p ∈ l, p.1 ≠ 0 ∧ p.1 ≠ 255)
    (hnd : (l.map Prod.fst).Nodup) :
    parse_options bs = presentEntries l := by
  have hbs := build_options_some hb
  subst hbs
  unfold parse_options
  have hpres : ∀ p ∈ presentEntries l, p.1 ≠ 0 ∧ p.1 ≠ 255 := by
    intro p hp
    rcases mem_presentEntries hp with ⟨q, hq, hq1, _⟩
    exact hq1 ▸ hcodes q hq
  rw [parseAux_encode (presentEntries l) [255] [] _ hpres (Nat.le_refl _)]
  rw [List.length_singleton, parseAux_one_term]
  rw [foldl_dinsert_eq_append (presentEntries l) [] (by intro p _ q hq; cases hq)
        (List.Nodup.sublist (presentEntries_keys_sublist l) hnd)]
  exact List.nil_append _

/-- C5 counterexample: the claim quantifies over every option list without a
terminator entry, which includes padding (code 0) entries; for the list
`[(0, b"")]` the built bytes are `[0, 0, 255]`, and parsing skips the padding
bytes, so the parse yields no entries at all instead of the list's single
code-to-value entry `0 -> b""`. -/
theorem options_roundtrip_counterexample :
    build_options [(0, some ([] : List Nat))] = some [0, 0, 255]
    ∧ parse_options [0, 0, 255] = []
    ∧ presentEntries [(0, some ([] : List Nat))] ≠ [] := by decide

theorem options_roundtrip_witness :
    parse_options [53, 1, 1, 1, 2, 2, 3, 255]
      = presentEntries [(53, some [1]), (50, none), (1, some [2, 3])] :=
  options_roundtrip [(53, some [1]), (50, none), (1, some [2, 3])]
    [53, 1, 1, 1, 2, 2, 3, 255] (by decide) (by decide) (by decide)

/-- C8 (amended): parsing a truncated option buffer signals no error and keeps
everything accumulated before the truncation point, but the two truncation
shapes differ: if the buffer ends right after a code byte (no length byte),
the pending option contributes no entry, while if the buffer ends before the
declared number of value bytes, the truncated option IS recorded, with the
value bytes that are present (`raw[idx : idx + length]` silently yields the
short slice). -/
theorem parse_truncation (entries : List (Nat × List Nat)) (code len : Nat)
    (part : List Nat)
    (h : ∀ p ∈ entries, p.1 ≠ 0 ∧ p.1 ≠ 255) (hc0 : code ≠ 0) (hc255 : code ≠ 255)
    (hpart : part.length < len) :
    parse_options (encodeOpts entries ++ [code]) = parse_options (encodeOpts entries)
    ∧ parse_options (encodeOpts entries ++ code :: len :: part)
        = dinsert (parse_options (encodeOpts entries)) code part := by
  have hbase : parse_options (encodeOpts entries)
      = entries.foldl (fun a p => dinsert a p.1 p.2) [] := by
    unfold parse_options
    have h0 := parseAux_encode entries [] [] (encodeOpts entries ++ []).length h
      (Nat.le_refl _)
    simp only [List.append_nil, List.length_nil] at h0
    rw [h0]
    rfl
  constructor
  · unfold parse_options
    rw [parseAux_encode entries [code] [] _ h (Nat.le_refl _)]
    rw [List.length_singleton]
    have hone : ∀ F, parseAux 1 [code] F = F := by
      intro F
      simp only [parseAux]
      rw [if_neg hc255, if_neg hc0]
    rw [hone]
    exact hbase.symm
  · unfold parse_options
    rw [parseAux_encode entries (code :: len :: part) [] _ h (Nat.le_refl _)]
    simp only [List.length_cons, parseAux]
    rw [if_neg hc255, if_neg hc0]
    rw [List.take_of_length_le (Nat.le_of_lt hpart),
        List.drop_of_length_le (Nat.le_of_lt hpart)]
    have hnil : ∀ (n : Nat) (X : List (Nat × List Nat)), parseAux (n + 1) [] X = X :=
      fun n X => rfl
    rw [hnil]
    exact congrArg (fun F => dinsert F code part) hbase.symm

/-- C8 counterexample: for the raw bytes `[1, 4, 9]` the buffer ends before
the 4 declared value bytes, yet parsing records the truncated option with its
single available value byte, `1 -> [9]`, instead of contributing no entry as
the claim states (the claim would demand the empty mapping here, since no
option is fully present). -/
theorem parse_truncation_counterexample :
    parse_options [1, 4, 9] = [(1, [9])] ∧ parse_options [1, 4, 9] ≠ [] := by decide

theorem parse_truncation_witness :
    parse_options (encodeOpts [(53, [1])] ++ [50]) = parse_options (encodeOpts [(53, [1])])
    ∧ parse_options (encodeOpts [(53, [1])] ++ 50 :: 4 :: [10])
        = dinsert (parse_options (encodeOpts [(53, [1])])) 50 [10] :=
  parse_truncation [(53, [1])] 50 4 [10] (by decide) (by decide) (by decide) (by decide)

/-! ## IPv4 address strings (`ipaddress.ip_address`, `socket.inet_ntoa`) -/

/-- Split a character list on the dot separator, like `"a.b.c".split(".")`. -/
def splitOnDot : List Char → List (List Char)
  | [] => [[]]
  | c :: rest =>
    if c = '.' then [] :: splitOnDot rest
    else
      match splitOnDot rest with
      | [] => [[c]]
      | g :: gs => (c :: g) :: gs

/-- One dotted-quad octet, as validated by `ipaddress.ip_address` for IPv4
strings: one to three ASCII digits, no leading zero, value at most 255
(`none` models the `ValueError` raised otherwise). -/
def octetVal (cs : List Char) : Option Nat :=
  if cs ≠ [] ∧ cs.all Char.isDigit ∧ cs.length ≤ 3
      ∧ (1 < cs.length → cs.head? ≠ some '0') then
    let v := cs.foldl (fun a c => a * 10 + (c.toNat - '0'.toNat)) 0
    if v ≤ 255 then some v else none
  else none

/-- `ipaddress.ip_address(s)` restricted to IPv4 dotted-quad strings, as the
allocator uses it (lines 83-84): the numeric value of a valid `a.b.c.d`
string, `none` for the `ValueError` raised on anything else.  (IPv6 literals,
which `ip_address` would accept but whose comparison against the IPv4 pool
bounds then raises `TypeError`, are outside this model; no string the
dispatcher can produce via `inet_ntoa` is an IPv6 literal.) -/
def parse_ip_str (s : String) : Option Nat :=
  match (splitOnDot s.data).mapM octetVal with
  | some [a, b, c, d] => some (((a * 256 + b) * 256 + c) * 256 + d)
  | _ => none

/-- `socket.inet_ntoa(bs)`: the dotted-quad string of a 4-byte packed address;
`none` models the `OSError: packed IP wrong length` raised for any other
length. -/
def inet_ntoa (bs : List Nat) : Option String :=
  match bs with
  | [a, b, c, d] =>
    some (toString a ++ "." ++ toString b ++ "." ++ toString c ++ "." ++ toString d)
  | _ => none

/-- The REQUEST-path extraction of the requested address in `main`
(lines 204-205): `requested = options.get(50)`;
`requested_ip = socket.inet_ntoa(requested) if requested else None`.
The outer `none` models an exception escaping this step (nothing in `main`
catches it); `some r` is the `requested_ip` handed to `allocate`. -/
def request_requested_ip (options : List (Nat × List Nat)) : Option (Option String) :=
  match dlookup options 50 with
  | none => some none
  | some bs => if bs.isEmpty then some none else (inet_ntoa bs).map some

example : parse_ip_str "10.0.0.5" = some 167772165 := by decide
example : parse_ip_str "" = none := by decide
example : parse_ip_str "300.0.0.1" = none := by decide
example : parse_ip_str "10.0.0" = none := by decide
example : parse_ip_str "10.0.0.01" = none := by decide
example : inet_ntoa [10, 0, 0, 5] = some "10.0.0.5" := by decide
example : request_requested_ip [(50, [10, 0, 0])] = none := by decide
example : request_requested_ip [(50, [])] = some none := by decide
example : request_requested_ip [(53, [3])] = some none := by decide

/-! ## Lease allocator (`LeaseManager`) -/

/-- State of a `LeaseManager` (src/dhcp_app.py lines 54-59): inclusive pool
bounds as 32-bit address integers, the configured lease duration, and the
`mac -> (ip, expiry)` dict in insertion order. -/
structure LeaseState where
  pool_start : Nat
  pool_end : Nat
  lease_time : Int
  leases : List (String × Nat × Int)
  deriving DecidableEq

/-- `LeaseManager(pool_start, pool_end, lease_time)`: fresh manager with an
empty lease table. -/
def initState (ps pe : Nat) (lt : Int) : LeaseState :=
  { pool_start := ps, pool_end := pe, lease_time := lt, leases := [] }

/-- `LeaseManager._is_available(ip)` (lines 68-73): no lease entry holds this
address with an expiry strictly in the future. -/
def is_available (leases : List (String × Nat × Int)) (now : Int) (ip : Nat) : Bool :=
  leases.all (fun e => !decide (e.2.1 = ip ∧ now < e.2.2))

/-- The `for ip_addr in self._iter_pool()` scan (lines 89-92), iterating
`count` consecutive addresses upward from `cur` and returning the first
available one. -/
def scanFrom (leases : List (String × Nat × Int)) (now : Int) : Nat → Nat → Option Nat
  | _, 0 => none
  | cur, count + 1 =>
    if is_available leases now cur then some cur else scanFrom leases now (cur + 1) count

/-- The full pool scan: `_iter_pool` yields `pool_start, ..., pool_end`
inclusive, i.e. `pool_end + 1 - pool_start` addresses starting at
`pool_start`. -/
def findFree (leases : List (String × Nat × Int)) (now : Int) (ps pe : Nat) : Option Nat :=
  scanFrom leases now ps (pe + 1 - ps)

/-- The pool-scan arm of `allocate` (lines 89-93): bind the first available
pool address, or return `None` with the state untouched when the pool is
exhausted. -/
def allocateScan (s : LeaseState) (mac : String) (now : Int) : Option Nat × LeaseState :=
  match findFree s.leases now s.pool_start s.pool_end with
  | some ip =>
    (some ip, { s with leases := dinsert s.leases mac (ip, now + s.lease_time) })
  | none => (none, s)

/-- The requested-address arm of `allocate` (lines 81-88), reached when `mac`
holds no active lease: `if requested_ip:` (None and the empty string are
falsy), parse it (`ValueError` falls through), honor it only when inside the
pool bounds and available; otherwise fall through to the pool scan. -/
def allocateFresh (s : LeaseState) (mac : String) :
    Option String → Int → Option Nat × LeaseState
  | some rs, now =>
    if rs = "" then allocateScan s mac now
    else
      match parse_ip_str rs with
      | some ip =>
        if s.pool_start ≤ ip ∧ ip ≤ s.pool_end ∧ is_available s.leases now ip = true then
          (some ip, { s with leases := dinsert s.leases mac (ip, now + s.lease_time) })
        else allocateScan s mac now
      | none => allocateScan s mac now
  | none, now => allocateScan s mac now

/-- `LeaseManager.allocate(mac, requested_ip)` (lines 75-93), with the call's
`time.time()` passed in as `now`: an active existing lease is re-offered
unchanged (no expiry renewal); otherwise the requested-address arm and the
pool scan run.  Returns the allocated address (or `none`) and the updated
state. -/
def allocate (s : LeaseState) (mac : String) (requested : Option String)
    (now : Int) : Option Nat × LeaseState :=
  match dlookup s.leases mac with
  | some (ip, expiry) =>
    if now < expiry then (some ip, s) else allocateFresh s mac requested now
  | none => allocateFresh s mac requested now

/-- A sequence of `allocate` calls applied left to right, each pair being
(hardware address, call time); returns the per-call results and the final
state. -/
def allocList (s : LeaseState) : List (String × Int) → List (Option Nat) × LeaseState
  | [] => ([], s)
  | (mac, t) :: rest =>
    let r := allocate s mac none t
    let rr := allocList r.2 rest
    (r.1 :: rr.1, rr.2)

/-- Lease tables of the exhaustion scenario: the macs of `ms` hold the
consecutive addresses `base, base + 1, ...`, each with its own expiry. -/
def mkLeases : List (String × Int) → Nat → List (String × Nat × Int)
  | [], _ => []
  | (mac, e) :: rest, base => (mac, base, e) :: mkLeases rest (base + 1)

/-- Lease-table states reachable from a fresh `LeaseManager` by `allocate`
calls at nondecreasing times; the time index is the current time (the time of
the latest call, or any earlier instant for the initial state). -/
inductive Reachable : LeaseState → Int → Prop
  | init (ps pe : Nat) (lt : Int) (t : Int) : Reachable (initState ps pe lt) t
  | step {s : LeaseState} {t : Int} (mac : String) (requested : Option String)
      {t' : Int} (hr : Reachable s t) (hle : t ≤ t') :
      Reachable (allocate s mac requested t').2 t'

/-- At most one hardware address holds an active lease (expiry strictly in
the future) on any given address. -/
def ActiveUnique (leases : List (String × Nat × Int)) (t : Int) : Prop :=
  ∀ m1 ip1 e1 m2 ip2 e2, (m1, ip1, e1) ∈ leases → (m2, ip2, e2) ∈ leases →
    ip1 = ip2 → t < e1 → t < e2 → m1 = m2

/-- C1's invariant on a lease-manager state. -/
def AtMostOneActive (s : LeaseState) (t : Int) : Prop :=
  ActiveUnique s.leases t

/-- C9's invariant: every address stored in the lease table lies inside the
inclusive pool bounds. -/
def PoolBounded (s : LeaseState) : Prop :=
  ∀ m ip e, (m, ip, e) ∈ s.leases → s.pool_start ≤ ip ∧ ip ≤ s.pool_end

example : (allocate (initState 10 12 60) "aa" none 0)
    = (some 10, ⟨10, 12, 60, [("aa", 10, 60)]⟩) := by decide
example : (allocList (initState 10 12 60) [("aa", 0), ("bb", 1), ("cc", 2)]).1
    = [some 10, some 11, some 12] := by decide
example : (allocate (allocList (initState 10 12 60) [("aa", 0), ("bb", 1), ("cc", 2)]).2
    "dd" none 3).1 = none := by decide
example : (allocate ⟨10, 12, 60, [("aa", 11, 100)]⟩ "aa" (some "10.0.0.9") 5)
    = (some 11, ⟨10, 12, 60, [("aa", 11, 100)]⟩) := by decide
example : (allocate ⟨10, 12, 60, [("aa", 11, 100)]⟩ "bb" none 200)
    = (some 10, ⟨10, 12, 60, [("aa", 11, 100), ("bb", 10, 260)]⟩) := by decide
example : (allocate ⟨10, 12, 60, [("aa", 11, 100)]⟩ "bb" none 50)
    = (some 10, ⟨10, 12, 60, [("aa", 11, 100), ("bb", 10, 110)]⟩) := by decide
example : (allocate (initState 10 12 60) "aa" (some "junk") 0).1 = some 10 := by decide
example : (allocate ⟨167772160, 167772170, 60, []⟩ "aa" (some "10.0.0.5") 0).1
    = some 167772165 := by decide


/-! ## Pool-scan lemmas -/

theorem scanFrom_some {l : List (String × Nat × Int)} {now : Int} {ip : Nat} :
    ∀ (n cur : Nat), scanFrom l now cur n = some ip →
    cur ≤ ip ∧ ip < cur + n ∧ is_available l now ip = true := by
  intro n
  induction n with
  | zero => intro cur h; cases h
  | succ k ih =>
    intro cur h
    simp only [scanFrom] at h
    by_cases hav : is_available l now cur = true
    · rw [if_pos hav] at h
      obtain rfl : cur = ip := by cases h; rfl
      exact ⟨Nat.le_refl _, by omega, hav⟩
    · rw [if_neg hav] at h
      obtain ⟨h1, h2, h3⟩ := ih (cur + 1) h
      exact ⟨by omega, by omega, h3⟩

theorem scanFrom_none {l : List (String × Nat × Int)} {now : Int} :
    ∀ (n cur : Nat), (∀ i, cur ≤ i → i < cur + n → is_available l now i = false) →
    scanFrom l now cur n = none := by
  intro n
  induction n with
  | zero => intro cur _; rfl
  | succ k ih =>
    intro cur h
    simp only [scanFrom]
    rw [if_neg (by rw [h cur (Nat.le_refl _) (by omega)]; exact Bool.false_ne_true)]
    exact ih (cur + 1) (fun i h1 h2 => h i (by omega) (by omega))

theorem scanFrom_least {l : List (String × Nat × Int)} {now : Int} :
    ∀ (k n cur : Nat), (∀ i, cur ≤ i → i < cur + k → is_available l now i = false) →
    is_available l now (cur + k) = true → k < n →
    scanFrom l now cur n = some (cur + k) := by
  intro k
  induction k with
  | zero =>
    intro n cur _ hav hk
    cases n with
    | zero => omega
    | succ m =>
      simp only [scanFrom]
      rw [if_pos (by simpa using hav)]
      rfl
  | succ j ih =>
    intro n cur hlt hav hk
    cases n with
    | zero => omega
    | succ m =>
      simp only [scanFrom]
      rw [if_neg (by rw [hlt cur (Nat.le_refl _) (by omega)]; exact Bool.false_ne_true)]
      rw [ih m (cur + 1) (fun i h1 h2 => hlt i (by omega) (by omega))
            (by rw [show cur + 1 + j = cur + (j + 1) by omega]; exact hav) (by omega)]
      rw [show cur + 1 + j = cur + (j + 1) by omega]

theorem findFree_some {l : List (String × Nat × Int)} {now : Int} {ps pe ip : Nat}
    (h : findFree l now ps pe = some ip) :
    ps ≤ ip ∧ ip ≤ pe ∧ is_available l now ip = true := by
  unfold findFree at h
  obtain ⟨h1, h2, h3⟩ := scanFrom_some _ _ h
  exact ⟨h1, by omega, h3⟩

theorem is_available_forall {l : List (String × Nat × Int)} {now : Int} {ip : Nat}
    (h : is_available l now ip = true) :
    ∀ m ip' e, (m, ip', e) ∈ l → ip' = ip → e ≤ now := by
  intro m ip' e hm hip
  have hall := List.all_eq_true.mp h (m, ip', e) hm
  simp only [Bool.not_eq_true', decide_eq_false_iff_not] at hall
  exact le_of_not_lt (fun hlt => hall ⟨hip, hlt⟩)

/-! ## Unfolding lemmas for the allocator -/

theorem allocate_eq_lookup_some {s : LeaseState} {mac : String} {ip0 : Nat} {e0 : Int}
    (req : Option String) (now : Int) (h : dlookup s.leases mac = some (ip0, e0)) :
    allocate s mac req now
      = if now < e0 then (some ip0, s) else allocateFresh s mac req now := by
  unfold allocate
  rw [h]

theorem allocate_eq_lookup_none {s : LeaseState} {mac : String}
    (req : Option String) (now : Int) (h : dlookup s.leases mac = none) :
    allocate s mac req now = allocateFresh s mac req now := by
  unfold allocate
  rw [h]

theorem allocateFresh_none (s : LeaseState) (mac : String) (now : Int) :
    allocateFresh s mac none now = allocateScan s mac now := rfl

theorem allocateFresh_parse_none {rs : String} (s : LeaseState) (mac : String)
    (now : Int) (h : parse_ip_str rs = none) :
    allocateFresh s mac (some rs) now = allocateScan s mac now := by
  simp only [allocateFresh]
  by_cases he : rs = ""
  · rw [if_pos he]
  · rw [if_neg he, h]

theorem allocateFresh_parse_some {rs : String} {ip : Nat} (s : LeaseState)
    (mac : String) (now : Int) (h : parse_ip_str rs = some ip) :
    allocateFresh s mac (some rs) now
      = if s.pool_start ≤ ip ∧ ip ≤ s.pool_end ∧ is_available s.leases now ip = true then
          (some ip, { s with leases := dinsert s.leases mac (ip, now + s.lease_time) })
        else allocateScan s mac now := by
  have he : rs ≠ "" := by
    intro hh
    rw [hh] at h
    have h0 : parse_ip_str "" = none := by decide
    rw [h0] at h
    cases h
  simp only [allocateFresh]
  rw [if_neg he, h]

theorem allocateScan_eq_some {s : LeaseState} {ip : Nat} (mac : String) (now : Int)
    (h : findFree s.leases now s.pool_start s.pool_end = some ip) :
    allocateScan s mac now
      = (some ip, { s with leases := dinsert s.leases mac (ip, now + s.lease_time) }) := by
  unfold allocateScan
  rw [h]

theorem allocateScan_eq_none {s : LeaseState} (mac : String) (now : Int)
    (h : findFree s.leases now s.pool_start s.pool_end = none) :
    allocateScan s mac now = (none, s) := by
  unfold allocateScan
  rw [h]

theorem allocateScan_state_cases (s : LeaseState) (mac : String) (now : Int) :
    (allocateScan s mac now).2 = s
    ∨ ∃ ip, s.pool_start ≤ ip ∧ ip ≤ s.pool_end ∧ is_available s.leases now ip = true
        ∧ (allocateScan s mac now).2
            = { s with leases := dinsert s.leases mac (ip, now + s.lease_time) } := by
  cases h : findFree s.leases now s.pool_start s.pool_end with
  | none => exact Or.inl (by rw [allocateScan_eq_none mac now h])
  | some ip =>
    obtain ⟨h1, h2, h3⟩ := findFree_some h
    exact Or.inr ⟨ip, h1, h2, h3, by rw [allocateScan_eq_some mac now h]⟩

theorem allocateFresh_state_cases (s : LeaseState) (mac : String) (req : Option String)
    (now : Int) :
    (allocateFresh s mac req now).2 = s
    ∨ ∃ ip, s.pool_start ≤ ip ∧ ip ≤ s.pool_end ∧ is_available s.leases now ip = true
        ∧ (allocateFresh s mac req now).2
            = { s with leases := dinsert s.leases mac (ip, now + s.lease_time) } := by
  cases req with
  | none => exact allocateScan_state_cases s mac now
  | some rs =>
    cases hp : parse_ip_str rs with
    | none => rw [allocateFresh_parse_none s mac now hp]; exact allocateScan_state_cases s mac now
    | some ip =>
      rw [allocateFresh_parse_some s mac now hp]
      by_cases hc : s.pool_start ≤ ip ∧ ip ≤ s.pool_end ∧ is_available s.leases now ip = true
      · rw [if_pos hc]
        exact Or.inr ⟨ip, hc.1, hc.2.1, hc.2.2, rfl⟩
      · rw [if_neg hc]
        exact allocateScan_state_cases s mac now

theorem allocate_state_cases (s : LeaseState) (mac : String) (req : Option String)
    (now : Int) :
    (allocate s mac req now).2 = s
    ∨ ∃ ip, s.pool_start ≤ ip ∧ ip ≤ s.pool_end ∧ is_available s.leases now ip = true
        ∧ (allocate s mac req now).2
            = { s with leases := dinsert s.leases mac (ip, now + s.lease_time) } := by
  cases hdl : dlookup s.leases mac with
  | none =>
    rw [allocate_eq_lookup_none req now hdl]
    exact allocateFresh_state_cases s mac req now
  | some p =>
    obtain ⟨ip0, e0⟩ := p
    rw [allocate_eq_lookup_some req now hdl]
    by_cases ht : now < e0
    · rw [if_pos ht]
      exact Or.inl rfl
    · rw [if_neg ht]
      exact allocateFresh_state_cases s mac req now

theorem allocateScan_fst_some {s : LeaseState} {mac : String} {now : Int} {ip : Nat}
    (h : (allocateScan s mac now).1 = some ip) :
    s.pool_start ≤ ip ∧ ip ≤ s.pool_end := by
  cases hf : findFree s.leases now s.pool_start s.pool_end with
  | none =>
    rw [allocateScan_eq_none mac now hf] at h
    cases h
  | some ip' =>
    rw [allocateScan_eq_some mac now hf] at h
    simp only [Option.some.injEq] at h
    subst h
    obtain ⟨h1, h2, -⟩ := findFree_some hf
    exact ⟨h1, h2⟩

theorem allocateFresh_fst_some {s : LeaseState} {mac : String} {req : Option String}
    {now : Int} {ip : Nat} (h : (allocateFresh s mac req now).1 = some ip) :
    s.pool_start ≤ ip ∧ ip ≤ s.pool_end := by
  cases req with
  | none => exact allocateScan_fst_some h
  | some rs =>
    cases hp : parse_ip_str rs with
    | none =>
      rw [allocateFresh_parse_none s mac now hp] at h
      exact allocateScan_fst_some h
    | some ip' =>
      rw [allocateFresh_parse_some s mac now hp] at h
      by_cases hc : s.pool_start ≤ ip' ∧ ip' ≤ s.pool_end
          ∧ is_available s.leases now ip' = true
      · rw [if_pos hc] at h
        simp only [Option.some.injEq] at h
        subst h
        exact ⟨hc.1, hc.2.1⟩
      · rw [if_neg hc] at h
        exact allocateScan_fst_some h

theorem allocate_fst_some {s : LeaseState} {mac : String} {req : Option String}
    {now : Int} {ip : Nat} (h : (allocate s mac req now).1 = some ip) :
    (∃ e, (mac, ip, e) ∈ s.leases) ∨ (s.pool_start ≤ ip ∧ ip ≤ s.pool_end) := by
  cases hdl : dlookup s.leases mac with
  | none =>
    rw [allocate_eq_lookup_none req now hdl] at h
    exact Or.inr (allocateFresh_fst_some h)
  | some p =>
    obtain ⟨ip0, e0⟩ := p
    rw [allocate_eq_lookup_some req now hdl] at h
    by_cases ht : now < e0
    · rw [if_pos ht] at h
      simp only [Option.some.injEq] at h
      subst h
      exact Or.inl ⟨e0, dlookup_mem hdl⟩
    · rw [if_neg ht] at h
      exact Or.inr (allocateFresh_fst_some h)

/-! ## Claims about single allocate calls -/

/-- C2: when `mac` already has a lease entry whose expiry is strictly in the
future, `allocate(mac, requested)` returns that entry's address and leaves the
whole lease table (indeed the whole state) unchanged, for any `requested`;
in particular the expiry is not extended, so a second call before expiry
returns the identical address again. -/
theorem reoffer_idempotent (s : LeaseState) (mac : String) (ip : Nat) (e : Int)
    (req req2 : Option String) (now now2 : Int)
    (h : dlookup s.leases mac = some (ip, e)) (h1 : now < e) (h2 : now2 < e) :
    allocate s mac req now = (some ip, s)
    ∧ (allocate (allocate s mac req now).2 mac req2 now2).1 = some ip := by
  have hfirst : allocate s mac req now = (some ip, s) := by
    rw [allocate_eq_lookup_some req now h, if_pos h1]
  refine ⟨hfirst, ?_⟩
  rw [hfirst]
  rw [allocate_eq_lookup_some req2 now2 h, if_pos h2]

theorem reoffer_idempotent_witness :
    allocate ⟨10, 12, 60, [("aa", 11, 100)]⟩ "aa" (some "10.0.0.9") 0
      = (some 11, ⟨10, 12, 60, [("aa", 11, 100)]⟩)
    ∧ (allocate (allocate ⟨10, 12, 60, [("aa", 11, 100)]⟩ "aa" (some "10.0.0.9") 0).2
        "aa" none 1).1 = some 11 :=
  reoffer_idempotent ⟨10, 12, 60, [("aa", 11, 100)]⟩ "aa" 11 100
    (some "10.0.0.9") none 0 1 (by decide) (by decide) (by decide)

/-- C3: when `mac` holds no active lease, the requested string parses as an
IPv4 address inside the pool bounds, and no hardware address holds an active
lease on that address, `allocate` binds `mac` to the requested address with
expiry `now + lease_time` and returns it. -/
theorem requested_address_honored (s : LeaseState) (mac : String) (rs : String)
    (ip : Nat) (now : Int)
    (hno : ∀ ip0 e0, dlookup s.leases mac = some (ip0, e0) → e0 ≤ now)
    (hp : parse_ip_str rs = some ip)
    (hlo : s.pool_start ≤ ip) (hhi : ip ≤ s.pool_end)
    (hav : is_available s.leases now ip = true) :
    allocate s mac (some rs) now
      = (some ip, { s with leases := dinsert s.leases mac (ip, now + s.lease_time) }) := by
  have hfresh : allocate s mac (some rs) now = allocateFresh s mac (some rs) now := by
    cases hdl : dlookup s.leases mac with
    | none => exact allocate_eq_lookup_none (some rs) now hdl
    | some p =>
      obtain ⟨ip0, e0⟩ := p
      rw [allocate_eq_lookup_some (some rs) now hdl]
      rw [if_neg (not_lt.mpr (hno ip0 e0 hdl))]
  rw [hfresh, allocateFresh_parse_some s mac now hp, if_pos ⟨hlo, hhi, hav⟩]

theorem requested_address_honored_witness :
    allocate ⟨167772160, 167772170, 60, [("bb", 167772161, 7)]⟩ "aa"
        (some "10.0.0.5") 20
      = (some 167772165,
         ⟨167772160, 167772170, 60,
          dinsert [("bb", 167772161, 7)] "aa" (167772165, 20 + 60)⟩) :=
  requested_address_honored ⟨167772160, 167772170, 60, [("bb", 167772161, 7)]⟩
    "aa" "10.0.0.5" 167772165 20
    (by intro ip0 e0 h; simp [dlookup] at h) (by decide) (by decide) (by decide) (by decide)

/-- C7 (amended): a `requested_ip` argument of `allocate` that fails to parse
as an IPv4 address (`ValueError` in `ipaddress.ip_address`) is treated exactly
like no requested address: the call falls through to the ascending pool scan
with identical result and state.  At the dispatcher, however, only option-50
values of length 0 (falsy) are treated as "no request" and length-4 values
always produce a parseable dotted-quad string; any other length makes
`socket.inet_ntoa` raise, and nothing in `main` catches that error
(see the counterexample theorem). -/
theorem invalid_requested_fallthrough (s : LeaseState) (mac : String) (rs : String)
    (now : Int) (h : parse_ip_str rs = none) :
    allocate s mac (some rs) now = allocate s mac none now := by
  have hfr : allocateFresh s mac (some rs) now = allocateFresh s mac none now := by
    rw [allocateFresh_parse_none s mac now h]
    rfl
  cases hdl : dlookup s.leases mac with
  | none =>
    rw [allocate_eq_lookup_none (some rs) now hdl, allocate_eq_lookup_none none now hdl]
    exact hfr
  | some p =>
    obtain ⟨ip0, e0⟩ := p
    rw [allocate_eq_lookup_some (some rs) now hdl, allocate_eq_lookup_some none now hdl]
    by_cases ht : now < e0
    · rw [if_pos ht, if_pos ht]
    · rw [if_neg ht, if_neg ht]
      exact hfr

theorem invalid_requested_fallthrough_witness :
    allocate (initState 10 12 60) "aa" (some "999.0.0.1") 0
      = allocate (initState 10 12 60) "aa" none 0 :=
  invalid_requested_fallthrough (initState 10 12 60) "aa" "999.0.0.1" 0 (by decide)

/-- C7 counterexample: the claim also covers raw option-50 bytes from an
inbound REQUEST, but a non-empty option-50 value whose length is not 4 makes
`socket.inet_ntoa(requested)` raise `OSError` before `allocate` is reached,
and `main` does not catch it (the result `none` models the escaping
exception), contradicting "no error propagates". -/
theorem invalid_requested_counterexample :
    request_requested_ip [(50, [10, 0, 0]), (53, [3])] = none := by decide

/-- C10: an `allocate` call touches at most the lease entry keyed by its
`mac` argument: the pool bounds, the lease duration, and every other
hardware address's lease entry are unchanged, whatever the arguments and
whatever the call returns. -/
theorem allocate_frame (s : LeaseState) (mac : String) (req : Option String)
    (now : Int) :
    (allocate s mac req now).2.pool_start = s.pool_start
    ∧ (allocate s mac req now).2.pool_end = s.pool_end
    ∧ (allocate s mac req now).2.lease_time = s.lease_time
    ∧ ∀ m, m ≠ mac →
        dlookup (allocate s mac req now).2.leases m = dlookup s.leases m := by
  rcases allocate_state_cases s mac req now with h | ⟨ip, _, _, _, h⟩
  · rw [h]
    exact ⟨rfl, rfl, rfl, fun m _ => rfl⟩
  · rw [h]
    exact ⟨rfl, rfl, rfl, fun m hm => dlookup_dinsert_ne _ hm⟩

theorem allocate_frame_witness :
    (allocate ⟨10, 12, 60, [("aa", 11, 100)]⟩ "bb" none 0).2.pool_start = 10
    ∧ (allocate ⟨10, 12, 60, [("aa", 11, 100)]⟩ "bb" none 0).2.pool_end = 12
    ∧ (allocate ⟨10, 12, 60, [("aa", 11, 100)]⟩ "bb" none 0).2.lease_time = 60
    ∧ dlookup (allocate ⟨10, 12, 60, [("aa", 11, 100)]⟩ "bb" none 0).2.leases "aa"
        = dlookup [("aa", 11, 100)] "aa" :=
  ⟨(allocate_frame ⟨10, 12, 60, [("aa", 11, 100)]⟩ "bb" none 0).1,
   (allocate_frame ⟨10, 12, 60, [("aa", 11, 100)]⟩ "bb" none 0).2.1,
   (allocate_frame ⟨10, 12, 60, [("aa", 11, 100)]⟩ "bb" none 0).2.2.1,
   (allocate_frame ⟨10, 12, 60, [("aa", 11, 100)]⟩ "bb" none 0).2.2.2 "aa" (by decide)⟩


/-! ## Reachable-state invariants (C1, C9) -/

theorem activeUnique_mono {l : List (String × Nat × Int)} {t t' : Int}
    (h : ActiveUnique l t) (hle : t ≤ t') : ActiveUnique l t' := by
  intro m1 ip1 e1 m2 ip2 e2 h1 h2 hip ha1 ha2
  exact h m1 ip1 e1 m2 ip2 e2 h1 h2 hip (lt_of_le_of_lt hle ha1) (lt_of_le_of_lt hle ha2)

theorem activeUnique_dinsert {l : List (String × Nat × Int)} {now : Int} {ip : Nat}
    (h : ActiveUnique l now) (hav : is_available l now ip = true)
    (mac : String) (e' : Int) :
    ActiveUnique (dinsert l mac (ip, e')) now := by
  intro m1 ip1 e1 m2 ip2 e2 h1 h2 hip ha1 ha2
  rcases mem_dinsert h1 with h1' | ⟨h1', hk1⟩ <;> rcases mem_dinsert h2 with h2' | ⟨h2', hk2⟩
  · simp only [Prod.mk.injEq] at h1' h2'
    rw [h1'.1, h2'.1]
  · simp only [Prod.mk.injEq] at h1'
    obtain ⟨-, hip1, -⟩ := h1'
    exact absurd ha2 (not_lt.mpr (is_available_forall hav m2 ip2 e2 h2' (hip ▸ hip1)))
  · simp only [Prod.mk.injEq] at h2'
    obtain ⟨-, hip2, -⟩ := h2'
    exact absurd ha1 (not_lt.mpr (is_available_forall hav m1 ip1 e1 h1' (hip.symm ▸ hip2)))
  · exact h m1 ip1 e1 m2 ip2 e2 h1' h2' hip ha1 ha2

theorem allocate_preserves_activeUnique (s : LeaseState) (mac : String)
    (req : Option String) (now : Int) (h : ActiveUnique s.leases now) :
    ActiveUnique (allocate s mac req now).2.leases now := by
  rcases allocate_state_cases s mac req now with hs | ⟨ip, _, _, hav, hs⟩
  · rw [hs]
    exact h
  · rw [hs]
    exact activeUnique_dinsert h hav mac (now + s.lease_time)

/-- C1: in every lease-table state reachable from the empty table by a
sequence of `allocate` calls (at nondecreasing times), at most one hardware
address holds an active lease — an entry whose expiry is strictly greater
than the current time — on any given IPv4 address, and every further
`allocate` call preserves this invariant, since `_is_available` treats
expired entries as non-binding. -/
theorem active_lease_uniqueness {s : LeaseState} {t : Int} (h : Reachable s t) :
    AtMostOneActive s t
    ∧ ∀ (mac : String) (req : Option String) (t' : Int), t ≤ t' →
        AtMostOneActive ((allocate s mac req t').2) t' := by
  have main : ∀ (s0 : LeaseState) (t0 : Int), Reachable s0 t0 → AtMostOneActive s0 t0 := by
    intro s0 t0 h0
    induction h0 with
    | init ps pe lt t1 =>
      intro m1 ip1 e1 m2 ip2 e2 h1 _ _ _ _
      cases h1
    | step mac req hr hle ih =>
      exact allocate_preserves_activeUnique _ _ _ _ (activeUnique_mono ih hle)
  refine ⟨main s t h, fun mac req t' hle => ?_⟩
  exact allocate_preserves_activeUnique _ _ _ _ (activeUnique_mono (main s t h) hle)

theorem active_lease_uniqueness_witness :
    AtMostOneActive ((allocate (initState 10 12 60) "aa" none 0).2) 0
    ∧ ∀ (mac : String) (req : Option String) (t' : Int), 0 ≤ t' →
        AtMostOneActive
          ((allocate ((allocate (initState 10 12 60) "aa" none 0).2) mac req t').2) t' :=
  active_lease_uniqueness
    (Reachable.step "aa" none (Reachable.init 10 12 60 0) (le_refl 0))

theorem poolBounded_preserved (s : LeaseState) (mac : String) (req : Option String)
    (now : Int) (h : PoolBounded s) : PoolBounded (allocate s mac req now).2 := by
  rcases allocate_state_cases s mac req now with hs | ⟨ip, hlo, hhi, _, hs⟩
  · rw [hs]
    exact h
  · intro m ip' e' hm
    rw [hs] at hm ⊢
    rcases mem_dinsert hm with h' | ⟨h', -⟩
    · simp only [Prod.mk.injEq] at h'
      obtain ⟨-, hip, -⟩ := h'
      subst hip
      exact ⟨hlo, hhi⟩
    · exact h m ip' e' h'

/-- C9: in every lease-table state reachable from the empty table by
`allocate` calls, every address stored in a lease entry lies inside the
inclusive pool range, and hence every address returned by a further
`allocate` call lies inside the pool range as well. -/
theorem pool_bounds_invariant {s : LeaseState} {t : Int} (h : Reachable s t) :
    PoolBounded s
    ∧ ∀ (mac : String) (req : Option String) (now : Int) (ip : Nat),
        (allocate s mac req now).1 = some ip →
        s.pool_start ≤ ip ∧ ip ≤ s.pool_end := by
  have main : ∀ (s0 : LeaseState) (t0 : Int), Reachable s0 t0 → PoolBounded s0 := by
    intro s0 t0 h0
    induction h0 with
    | init ps pe lt t1 =>
      intro m ip e hm
      cases hm
    | step mac req hr hle ih =>
      exact poolBounded_preserved _ _ _ _ ih
  refine ⟨main s t h, fun mac req now ip hip => ?_⟩
  rcases allocate_fst_some hip with ⟨e, hmem⟩ | hb
  · exact main s t h mac ip e hmem
  · exact hb

theorem pool_bounds_invariant_witness :
    PoolBounded ((allocate (initState 20 22 60) "aa" (some "junk") 5).2)
    ∧ ∀ (mac : String) (req : Option String) (now : Int) (ip : Nat),
        (allocate ((allocate (initState 20 22 60) "aa" (some "junk") 5).2)
            mac req now).1 = some ip →
        ((allocate (initState 20 22 60) "aa" (some "junk") 5).2).pool_start ≤ ip
        ∧ ip ≤ ((allocate (initState 20 22 60) "aa" (some "junk") 5).2).pool_end :=
  pool_bounds_invariant
    (Reachable.step "aa" (some "junk") (Reachable.init 20 22 60 5) (le_refl 5))

/-! ## Pool exhaustion (C4) -/

theorem mkLeases_mem : ∀ (ms : List (String × Int)) (base : Nat) (e : String × Nat × Int),
    e ∈ mkLeases ms base → e.1 ∈ ms.map Prod.fst := by
  intro ms
  induction ms with
  | nil => intro base e h; cases h
  | cons p rest ih =>
    intro base e h
    obtain ⟨m, ex⟩ := p
    simp only [mkLeases] at h
    simp only [List.map_cons]
    rcases List.mem_cons.mp h with h' | h'
    · rw [h']
      exact List.mem_cons_self _ _
    · exact List.mem_cons_of_mem _ (ih (base + 1) e h')

theorem mkLeases_append : ∀ (ms : List (String × Int)) (q : String × Int) (base : Nat),
    mkLeases (ms ++ [q]) base = mkLeases ms base ++ [(q.1, base + ms.length, q.2)] := by
  intro ms
  induction ms with
  | nil => intro q base; simp [mkLeases]
  | cons p rest ih =>
    intro q base
    obtain ⟨m, ex⟩ := p
    simp only [List.cons_append, mkLeases, List.length_cons, List.append_eq]
    rw [ih q (base + 1)]
    rw [show base + 1 + rest.length = base + (rest.length + 1) by omega]

theorem is_available_mkLeases : ∀ (ms : List (String × Int)) (base : Nat) (now : Int)
    (ip : Nat), (∀ p ∈ ms, now < p.2) →
    (is_available (mkLeases ms base) now ip = true ↔ ¬(base ≤ ip ∧ ip < base + ms.length)) := by
  intro ms
  induction ms with
  | nil =>
    intro base now ip _
    constructor
    · intro _ hc
      simp only [List.length_nil] at hc
      omega
    · intro _
      rfl
  | cons p rest ih =>
    intro base now ip hp
    obtain ⟨m, ex⟩ := p
    have hex : now < ex := hp (m, ex) (List.mem_cons_self _ _)
    have hrest := ih (base + 1) now ip (fun q hq => hp q (List.mem_cons_of_mem _ hq))
    simp only [mkLeases, is_available, List.all_cons, Bool.and_eq_true,
      Bool.not_eq_true', decide_eq_false_iff_not] at hrest ⊢
    constructor
    · intro ⟨hh, ht⟩ hc
      simp only [List.length_cons] at hc
      by_cases hb : ip = base
      · exact hh ⟨hb.symm, hex⟩
      · exact (hrest.mp ht) ⟨by omega, by omega⟩
    · intro hc
      simp only [List.length_cons] at hc
      refine ⟨fun hh => hc ⟨by omega, by omega⟩, hrest.mpr (fun hh => hc ⟨by omega, by omega⟩)⟩

/-- One step of the exhaustion scenario: from the state where the macs of
`ms` hold the consecutive addresses `ps, ps + 1, ...` with still-active
expiries, a fresh mac allocating with no request at time `t` gets the next
consecutive address with expiry `t + L`. -/
theorem allocate_step_exhaustion (ps pe : Nat) (L : Int) (ms : List (String × Int))
    (mac : String) (t : Int)
    (hfresh : mac ∉ ms.map Prod.fst)
    (hact : ∀ p ∈ ms, t < p.2)
    (hroom : ps + ms.length ≤ pe) :
    allocate ⟨ps, pe, L, mkLeases ms ps⟩ mac none t
      = (some (ps + ms.length),
         ⟨ps, pe, L, mkLeases (ms ++ [(mac, t + L)]) ps⟩) := by
  have hkeys : ∀ e ∈ mkLeases ms ps, e.1 ≠ mac :=
    fun e he hh => hfresh (hh ▸ mkLeases_mem ms ps e he)
  have hdl : dlookup (mkLeases ms ps) mac = none := dlookup_eq_none_of_forall _ _ hkeys
  rw [allocate_eq_lookup_none none t hdl, allocateFresh_none]
  have hunav : ∀ i, ps ≤ i → i < ps + ms.length →
      is_available (mkLeases ms ps) t i = false := by
    intro i h1 h2
    have := (is_available_mkLeases ms ps t i hact)
    rcases hb : is_available (mkLeases ms ps) t i with _ | _
    · rfl
    · exact absurd ⟨h1, h2⟩ (this.mp hb)
  have hav : is_available (mkLeases ms ps) t (ps + ms.length) = true :=
    (is_available_mkLeases ms ps t (ps + ms.length) hact).mpr (by omega)
  have hfind : findFree (mkLeases ms ps) t ps pe = some (ps + ms.length) := by
    unfold findFree
    exact scanFrom_least ms.length (pe + 1 - ps) ps hunav hav (by omega)
  rw [allocateScan_eq_some mac t hfind]
  simp only [Prod.mk.injEq, LeaseState.mk.injEq, true_and]
  rw [dinsert_of_absent _ hkeys, mkLeases_append ms (mac, t + L) ps]

/-- The exhaustion run: starting from the state where the macs of `ms` hold
the consecutive addresses from `ps` with still-active expiries, a sequence of
calls from fresh distinct macs (each call before every expiry established so
far) receives the consecutive addresses in ascending order. -/
theorem allocList_exhaustion_aux :
    ∀ (calls ms : List (String × Int)) (ps pe : Nat) (L : Int),
    ((ms ++ calls).map Prod.fst).Nodup →
    (∀ p ∈ ms, ∀ q ∈ calls, q.2 < p.2) →
    List.Pairwise (fun a b => b.2 < a.2 + L) calls →
    ps + ms.length + calls.length ≤ pe + 1 →
    allocList ⟨ps, pe, L, mkLeases ms ps⟩ calls
      = ((List.range' (ps + ms.length) calls.length).map (fun i => some i),
         ⟨ps, pe, L, mkLeases (ms ++ calls.map (fun q => (q.1, q.2 + L))) ps⟩) := by
  intro calls
  induction calls with
  | nil =>
    intro ms ps pe L _ _ _ _
    simp [allocList, List.range']
  | cons c rest ih =>
    intro ms ps pe L hnd hexp hpw hroom
    obtain ⟨mac, t⟩ := c
    have hnd' : (ms.map Prod.fst ++ mac :: rest.map Prod.fst).Nodup := by
      simpa using hnd
    have hfresh : mac ∉ ms.map Prod.fst := by
      intro hmem
      exact (List.nodup_append.mp hnd').2.2 hmem (List.mem_cons_self _ _)
    have hact : ∀ p ∈ ms, t < p.2 :=
      fun p hp => hexp p hp (mac, t) (List.mem_cons_self _ _)
    have hroom' : ps + ms.length ≤ pe := by
      simp only [List.length_cons] at hroom
      omega
    have hstep := allocate_step_exhaustion ps pe L ms mac t hfresh hact hroom'
    have hih := ih (ms ++ [(mac, t + L)]) ps pe L ?hnd2 ?hexp2 ?hpw2 ?hroom2
    case hnd2 =>
      simp only [List.map_append, List.map_cons, List.map_nil, List.append_assoc,
        List.singleton_append] at hnd ⊢
      exact hnd
    case hexp2 =>
      intro p hp q hq
      rcases List.mem_append.mp hp with hp' | hp'
      · exact hexp p hp' q (List.mem_cons_of_mem _ hq)
      · simp only [List.mem_singleton] at hp'
        subst hp'
        exact (List.pairwise_cons.mp hpw).1 q hq
    case hpw2 => exact (List.pairwise_cons.mp hpw).2
    case hroom2 =>
      simp only [List.length_append, List.length_singleton, List.length_cons,
        List.length_nil] at hroom ⊢
      omega
    simp only [allocList]
    rw [hstep]
    simp only
    rw [hih]
    have hlen : (ms ++ [(mac, t + L)]).length = ms.length + 1 := by simp
    rw [hlen]
    simp only [Prod.mk.injEq]
    constructor
    · simp only [List.length_cons]
      rw [List.range'_succ (ps + ms.length) rest.length 1, List.map_cons]
      rw [show ps + (ms.length + 1) = ps + ms.length + 1 by omega]
    · simp only [LeaseState.mk.injEq, true_and]
      rw [List.append_assoc]
      rfl

/-- C4: from an empty table over the inclusive pool `[ps, pe]` of size N,
N `allocate` calls with no requested address from N distinct hardware
addresses, each made before any established lease expires, return the N pool
addresses in ascending order (each bound with the caller's fresh expiry), and
an (N+1)-th call from yet another hardware address returns none. -/
theorem pool_exhaustion (ps pe : Nat) (L : Int) (calls : List (String × Int))
    (extraMac : String) (tx : Int)
    (hnd : (calls.map Prod.fst).Nodup)
    (hpw : List.Pairwise (fun a b => b.2 < a.2 + L) calls)
    (hsz : ps + calls.length = pe + 1)
    (hex1 : extraMac ∉ calls.map Prod.fst)
    (hex2 : ∀ q ∈ calls, tx < q.2 + L) :
    (allocList (initState ps pe L) calls).1
      = (List.range' ps calls.length).map (fun i => some i)
    ∧ (allocList (initState ps pe L) calls).2.leases
      = mkLeases (calls.map (fun q => (q.1, q.2 + L))) ps
    ∧ (allocate (allocList (initState ps pe L) calls).2 extraMac none tx).1 = none := by
  have h1 : allocList (initState ps pe L) calls
      = ((List.range' ps calls.length).map (fun i => some i),
         ⟨ps, pe, L, mkLeases (calls.map (fun q => (q.1, q.2 + L))) ps⟩) := by
    have h0 := allocList_exhaustion_aux calls [] ps pe L (by simpa using hnd)
      (by intro p hp; cases hp) hpw (by simp; omega)
    simpa using h0
  refine ⟨by rw [h1], by rw [h1], ?_⟩
  rw [h1]
  have hkeys : ∀ e ∈ mkLeases (calls.map (fun q => (q.1, q.2 + L))) ps,
      e.1 ≠ extraMac := by
    intro e he hh
    have hmem := mkLeases_mem _ _ _ he
    simp only [List.map_map] at hmem
    have hmem2 : e.1 ∈ calls.map Prod.fst := by
      have : (Prod.fst ∘ fun q : String × Int => (q.1, q.2 + L)) = Prod.fst := by
        funext q
        rfl
      rw [this] at hmem
      exact hmem
    exact hex1 (hh ▸ hmem2)
  have hdl : dlookup (mkLeases (calls.map (fun q => (q.1, q.2 + L))) ps) extraMac = none :=
    dlookup_eq_none_of_forall _ _ hkeys
  rw [allocate_eq_lookup_none none tx hdl, allocateFresh_none]
  have hact : ∀ p ∈ calls.map (fun q : String × Int => (q.1, q.2 + L)), tx < p.2 := by
    intro p hp
    rcases List.mem_map.mp hp with ⟨q, hq, rfl⟩
    exact hex2 q hq
  have hunav : ∀ i, ps ≤ i → i < ps + (pe + 1 - ps) →
      is_available (mkLeases (calls.map (fun q => (q.1, q.2 + L))) ps) tx i = false := by
    intro i hi1 hi2
    have hiff := is_available_mkLeases _ ps tx i hact
    rcases hb : is_available (mkLeases (calls.map (fun q => (q.1, q.2 + L))) ps) tx i with _ | _
    · exact hb
    · refine absurd ?_ (hiff.mp hb)
      simp only [List.length_map]
      omega
  have hfind : findFree (mkLeases (calls.map (fun q => (q.1, q.2 + L))) ps) tx ps pe
      = none := by
    unfold findFree
    exact scanFrom_none (pe + 1 - ps) ps hunav
  rw [allocateScan_eq_none extraMac tx hfind]

theorem pool_exhaustion_witness :
    (allocList (initState 10 12 60) [("aa", 0), ("bb", 1), ("cc", 2)]).1
      = (List.range' 10 3).map (fun i => some i)
    ∧ (allocList (initState 10 12 60) [("aa", 0), ("bb", 1), ("cc", 2)]).2.leases
      = mkLeases ([("aa", 0), ("bb", 1), ("cc", 2)].map (fun q => (q.1, q.2 + 60))) 10
    ∧ (allocate (allocList (initState 10 12 60) [("aa", 0), ("bb", 1), ("cc", 2)]).2
        "dd" none 3).1 = none :=
  pool_exhaustion 10 12 60 [("aa", 0), ("bb", 1), ("cc", 2)] "dd" 3
    (by decide) (by decide) (by decide) (by decide) (by decide)

/-! ## Packet builder (`build_reply`) -/

/-- BOOTP reply opcode. -/
def BOOTREPLY : Nat := 2

/-- The 4-byte DHCP magic cookie `63 82 53 63`. -/
def MAGIC_COOKIE : List Nat := [0x63, 0x82, 0x53, 0x63]

/-- Big-endian 2-byte encoding, as `struct.pack("!H", n)` produces for an
in-range value. -/
def pack16 (n : Nat) : List Nat := [n / 256 % 256, n % 256]

/-- Big-endian 4-byte encoding, as `struct.pack("!I", n)` produces for an
in-range value. -/
def pack32 (n : Nat) : List Nat :=
  [n / 16777216 % 256, n / 65536 % 256, n / 256 % 256, n % 256]

/-- Big-endian 2-byte decoding (`struct.unpack("!H", ..)`). -/
def unpack16 (a b : Nat) : Nat := a * 256 + b

/-- Big-endian 4-byte decoding (`struct.unpack("!I", ..)`). -/
def unpack32 (a b c d : Nat) : Nat := ((a * 256 + b) * 256 + c) * 256 + d

/-- The Python slice `l[i:j]`. -/
def seg (l : List Nat) (i j : Nat) : List Nat := (l.drop i).take (j - i)

/-- `struct.pack("<n>s", bs)`: the byte string truncated or null-padded to
exactly `n` bytes. -/
def padTo (n : Nat) (l : List Nat) : List Nat :=
  l.take n ++ List.replicate (n - l.length) 0

/-- `build_reply(request, yiaddr, server_ip, options)` (src/dhcp_app.py
lines 96-119): unpack the first 12 header bytes, copy `ciaddr` (bytes 12-16)
and `chaddr` (bytes 28-44) verbatim, pack the fixed 236-byte BOOTREPLY header
with the assigned and server addresses, zero `giaddr`/`sname`/`file`, then
append the magic cookie and the option bytes.  `none` models the
`struct.error` raised by `unpack` when the request is shorter than 12 bytes.
The `yiaddr` and `server_ip` arguments are the numeric IPv4 values whose
4-byte encodings `socket.inet_aton` produces in the source. -/
def build_reply (request : List Nat) (yiaddr : Nat) (server_ip : Nat)
    (options : List Nat) : Option (List Nat) :=
  if request.length < 12 then none
  else
    let htype := request.getD 1 0
    let hlen := request.getD 2 0
    let hops := request.getD 3 0
    let xid := unpack32 (request.getD 4 0) (request.getD 5 0)
      (request.getD 6 0) (request.getD 7 0)
    let secs := unpack16 (request.getD 8 0) (request.getD 9 0)
    let flags := unpack16 (request.getD 10 0) (request.getD 11 0)
    let ciaddr := padTo 4 (seg request 12 16)
    let chaddr := padTo 16 (seg request 28 44)
    some ([BOOTREPLY, htype, hlen, hops] ++ pack32 xid ++ pack16 secs ++ pack16 flags
      ++ ciaddr ++ pack32 yiaddr ++ pack32 server_ip ++ [0, 0, 0, 0] ++ chaddr
      ++ List.replicate 64 0 ++ List.replicate 128 0 ++ MAGIC_COOKIE ++ options)

set_option maxRecDepth 4000 in
example : build_reply (List.replicate 44 7) 258 515 [53, 1, 2, 255]
    = some ([2, 7, 7, 7, 7, 7, 7, 7, 7, 7, 7, 7, 7, 7, 7, 7]
        ++ [0, 0, 1, 2] ++ [0, 0, 2, 3] ++ [0, 0, 0, 0]
        ++ List.replicate 16 7 ++ List.replicate 64 0 ++ List.replicate 128 0
        ++ [0x63, 0x82, 0x53, 0x63] ++ [53, 1, 2, 255]) := by decide
example : build_reply [1, 2] 0 0 [] = none := by decide

theorem pack32_unpack32 {a b c d : Nat} (ha : a < 256) (hb : b < 256) (hc : c < 256)
    (hd : d < 256) : pack32 (unpack32 a b c d) = [a, b, c, d] := by
  unfold pack32 unpack32
  simp only [List.cons.injEq, and_true]
  refine ⟨?_, ?_, ?_, ?_⟩ <;> omega

theorem pack16_unpack16 {a b : Nat} (ha : a < 256) (hb : b < 256) :
    pack16 (unpack16 a b) = [a, b] := by
  unfold pack16 unpack16
  simp only [List.cons.injEq, and_true]
  exact ⟨by omega, by omega⟩

theorem seg_succ {l : List Nat} {i j : Nat} (h1 : i < j) (h2 : i < l.length) :
    seg l i j = l.getD i 0 :: seg l (i + 1) j := by
  unfold seg
  rw [List.drop_eq_getElem_cons h2]
  rw [show j - i = (j - (i + 1)) + 1 by omega, List.take_succ_cons]
  rw [List.getD_eq_getElem l 0 h2]

theorem seg_same (l : List Nat) (i : Nat) : seg l i i = [] := by
  unfold seg
  simp

theorem seg_length {l : List Nat} {i j : Nat} (h1 : i ≤ j) (h2 : j ≤ l.length) :
    (seg l i j).length = j - i := by
  unfold seg
  rw [List.length_take, List.length_drop]
  omega

theorem padTo_eq {n : Nat} {l : List Nat} (h : l.length = n) : padTo n l = l := by
  unfold padTo
  rw [List.take_of_length_le (le_of_eq h), h]
  simp

theorem seg_1_12 {l : List Nat} (h : 12 ≤ l.length) :
    seg l 1 12 = [l.getD 1 0, l.getD 2 0, l.getD 3 0, l.getD 4 0, l.getD 5 0,
      l.getD 6 0, l.getD 7 0, l.getD 8 0, l.getD 9 0, l.getD 10 0, l.getD 11 0] := by
  rw [@seg_succ l 1 12 (by omega) (by omega), @seg_succ l 2 12 (by omega) (by omega),
    @seg_succ l 3 12 (by omega) (by omega), @seg_succ l 4 12 (by omega) (by omega),
    @seg_succ l 5 12 (by omega) (by omega), @seg_succ l 6 12 (by omega) (by omega),
    @seg_succ l 7 12 (by omega) (by omega), @seg_succ l 8 12 (by omega) (by omega),
    @seg_succ l 9 12 (by omega) (by omega), @seg_succ l 10 12 (by omega) (by omega),
    @seg_succ l 11 12 (by omega) (by omega), seg_same]

set_option maxRecDepth 4000 in
/-- C6: for every request of at least 44 bytes, the reply starts with op 2
(BOOTREPLY), copies bytes 1-12 (htype, hlen, hops, xid, secs, flags) and the
ciaddr bytes 12-16 and chaddr bytes 28-44 of the request verbatim, carries
the assigned address as yiaddr and the server address as siaddr, zeroes
giaddr, sname (64 bytes) and file (128 bytes), and consists of exactly a
236-byte fixed header followed by the magic cookie 63 82 53 63 and then the
option bytes. -/
theorem build_reply_header_fidelity (request : List Nat) (yiaddr server_ip : Nat)
    (options : List Nat) (hlen : 44 ≤ request.length)
    (hbytes : ∀ b ∈ request, b < 256) :
    build_reply request yiaddr server_ip options
      = some ([BOOTREPLY] ++ seg request 1 12 ++ seg request 12 16
          ++ pack32 yiaddr ++ pack32 server_ip ++ [0, 0, 0, 0] ++ seg request 28 44
          ++ List.replicate 64 0 ++ List.replicate 128 0 ++ MAGIC_COOKIE ++ options)
    ∧ ([BOOTREPLY] ++ seg request 1 12 ++ seg request 12 16 ++ pack32 yiaddr
        ++ pack32 server_ip ++ [0, 0, 0, 0] ++ seg request 28 44
        ++ List.replicate 64 0 ++ List.replicate 128 0).length = 236 := by
  have hb : ∀ i, i < request.length → request.getD i 0 < 256 := by
    intro i hi
    rw [List.getD_eq_getElem request 0 hi]
    exact hbytes _ (List.getElem_mem hi)
  constructor
  · simp only [build_reply]
    rw [if_neg (by omega)]
    rw [pack32_unpack32 (hb 4 (by omega)) (hb 5 (by omega)) (hb 6 (by omega))
        (hb 7 (by omega)),
      pack16_unpack16 (hb 8 (by omega)) (hb 9 (by omega)),
      pack16_unpack16 (hb 10 (by omega)) (hb 11 (by omega)),
      padTo_eq (show (seg request 12 16).length = 4 by
        rw [@seg_length request 12 16 (by omega) (by omega)]),
      padTo_eq (show (seg request 28 44).length = 16 by
        rw [@seg_length request 28 44 (by omega) (by omega)]),
      @seg_1_12 request (by omega)]
    simp only [List.cons_append, List.nil_append, List.append_assoc]
  · have l1 : (seg request 1 12).length = 11 := by
      rw [@seg_length request 1 12 (by omega) (by omega)]
    have l2 : (seg request 12 16).length = 4 := by
      rw [@seg_length request 12 16 (by omega) (by omega)]
    have l3 : (seg request 28 44).length = 16 := by
      rw [@seg_length request 28 44 (by omega) (by omega)]
    simp only [List.length_append, l1, l2, l3, List.length_replicate,
      List.length_cons, List.length_nil, pack32, MAGIC_COOKIE, BOOTREPLY]

set_option maxRecDepth 8000 in
theorem build_reply_header_fidelity_witness :
    build_reply (List.replicate 44 7) 258 515 [53, 1, 2, 255]
      = some ([BOOTREPLY] ++ seg (List.replicate 44 7) 1 12
          ++ seg (List.replicate 44 7) 12 16
          ++ pack32 258 ++ pack32 515 ++ [0, 0, 0, 0] ++ seg (List.replicate 44 7) 28 44
          ++ List.replicate 64 0 ++ List.replicate 128 0 ++ MAGIC_COOKIE
          ++ [53, 1, 2, 255])
    ∧ ([BOOTREPLY] ++ seg (List.replicate 44 7) 1 12 ++ seg (List.replicate 44 7) 12 16
        ++ pack32 258 ++ pack32 515 ++ [0, 0, 0, 0] ++ seg (List.replicate 44 7) 28 44
        ++ List.replicate 64 0 ++ List.replicate 128 0).length = 236 :=
  build_reply_header_fidelity (List.replicate 44 7) 258 515 [53, 1, 2, 255]
    (by decide) (by decide)
